import Mathlib

/-!
Verification development for `nix-doc-munge` (src/main.rs).

The tool migrates DocBook-style documentation markup inside Nix option
declarations to CommonMark, keeping only rewrites whose rebuilt manual is
(after normalization) identical to the original build.

Shallow embedding notes:
* Strings are modelled as `List Char`; byte offsets from `rnix` are modelled
  as character offsets (all claims are index-representation agnostic).
* The `rnix` parser is an external collaborator.  It is modelled at its
  interface: a generic syntax tree (`SyntaxNode`) with a kind tag, a span and
  ordered children, plus the typed views (`Apply`, `Select`, `Ident`, `Paren`,
  `AttrSet`, `KeyValue`) that `find_candidates` and `is_call_to` use.
* The regex crate is modelled by a small backtracking engine over a regex AST
  (`Re`) with Rust's leftmost-first match semantics and `replace_all`
  scanning; every pattern of the source is transcribed literally into this
  AST.  Star/plus bodies in the source are single-character classes, which the
  AST mirrors, keeping the matcher structurally recursive.
* The external `nix-build` oracle is an opaque parameter
  `oracle : List Char → Except (List Char) (List Char)` mapping the file
  content written into the workspace to the build product (or diagnostics).
* `unwrap`s of the source that are unreachable for successfully parsed trees
  (a `KeyValue` always has a value, a parenthesised expression always has an
  inner node) are modelled by total default branches, as noted inline.
* The `assert!(import.is_none())` in `build_manual` is modelled by returning
  `none` (a panic) from the functions involved.
-/

namespace NixDocMunge

/-! ## Syntax tree model (interface of the external `rnix` parser) -/

/-- Node kinds relevant to `find_candidates`; everything else is `OTHER`. -/
inductive SyntaxKind where
  | NODE_APPLY
  | NODE_ATTR_SET
  | NODE_IDENT
  | NODE_SELECT
  | NODE_PAREN
  | NODE_KEY_VALUE
  | NODE_KEY
  | NODE_STRING
  | OTHER
deriving DecidableEq

/-- A byte range of the source file (rnix `TextRange`); `stop` models the
source's `end()` (`end` is a Lean keyword). -/
structure TextRange where
  start : Nat
  stop : Nat
deriving DecidableEq

/-- A node of the generic syntax tree: kind tag, span, token text (used by
`Ident::as_str` and `to_string` on key-path components) and ordered child
nodes (rowan's `children()`). -/
inductive SyntaxNode where
  | mk (kind : SyntaxKind) (range : TextRange) (text : String)
       (children : List SyntaxNode)

def SyntaxNode.kind : SyntaxNode → SyntaxKind
  | .mk k _ _ _ => k

def SyntaxNode.range : SyntaxNode → TextRange
  | .mk _ r _ _ => r

def SyntaxNode.text : SyntaxNode → String
  | .mk _ _ t _ => t

def SyntaxNode.children : SyntaxNode → List SyntaxNode
  | .mk _ _ _ cs => cs

/-- `Apply::cast`: succeeds exactly on `NODE_APPLY`. -/
def applyCast (n : SyntaxNode) : Option SyntaxNode :=
  if n.kind = .NODE_APPLY then some n else none

/-- `Apply::lambda()`: the function part (first child). -/
def applyLambda (n : SyntaxNode) : Option SyntaxNode :=
  n.children.head?

/-- `Apply::value()`: the argument (second child). -/
def applyValue (n : SyntaxNode) : Option SyntaxNode :=
  n.children.get? 1

/-- `Ident::cast`. -/
def identCast (n : SyntaxNode) : Option SyntaxNode :=
  if n.kind = .NODE_IDENT then some n else none

/-- `Select::cast`. -/
def selectCast (n : SyntaxNode) : Option SyntaxNode :=
  if n.kind = .NODE_SELECT then some n else none

/-- `Select::set()`: first child. -/
def selSet (n : SyntaxNode) : Option SyntaxNode :=
  n.children.head?

/-- `Select::index()`: second child. -/
def selIndex (n : SyntaxNode) : Option SyntaxNode :=
  n.children.get? 1

/-- `Paren::cast`. -/
def parenCast (n : SyntaxNode) : Option SyntaxNode :=
  if n.kind = .NODE_PAREN then some n else none

/-- `AttrSet::entries()`: child nodes of kind `NODE_KEY_VALUE`, in order. -/
def attrEntries (n : SyntaxNode) : List SyntaxNode :=
  n.children.filter (fun c => c.kind = .NODE_KEY_VALUE)

/-- `KeyValue::key()`: the first child when it is a `NODE_KEY`. -/
def kvKey (n : SyntaxNode) : Option SyntaxNode :=
  n.children.head?.bind (fun c => if c.kind = .NODE_KEY then some c else none)

/-- `KeyValue::value()`: the second child. -/
def kvValue (n : SyntaxNode) : Option SyntaxNode :=
  n.children.get? 1

/-! ## `is_call_to` and `key_string` (src/main.rs lines 104-127) -/

/-- `is_call_to(n, f)`: `n` is a function application whose callee is the
identifier `f` or the selection `lib.f`. -/
def is_call_to (n : SyntaxNode) (f : String) : Bool :=
  match applyCast n with
  | none => false
  | some tgt =>
    match (applyLambda tgt).bind identCast with
    | some id => id.text = f
    | none =>
      match (applyLambda tgt).bind selectCast with
      | some sel =>
        match (selSet sel).bind identCast, (selIndex sel).bind identCast with
        | some s, some i => s.text = "lib" && i.text = f
        | _, _ => false
      | none => false

/-- `key_string(kv)`: the `.`-joined key path of an attribute entry. -/
def key_string (kv : SyntaxNode) : String :=
  match kvKey kv with
  | none => ""
  | some k => String.intercalate "." (k.children.map (fun p => p.text))

/-! ## `find_candidates` (src/main.rs lines 129-178) -/

-- Tree size, used as fuel for the breadth-first worklist loop (the loop of
-- the source pops each enqueued node exactly once, and every node is enqueued
-- at most once, so `size t` bounds the number of iterations).
mutual
def SyntaxNode.size : SyntaxNode → Nat
  | .mk _ _ _ cs => 1 + sizeList cs
def sizeList : List SyntaxNode → Nat
  | [] => 0
  | c :: cs => c.size + sizeList cs
end

/-- The condition under which the argument of an `Apply` node is pushed with
`parent_is_option = true` (the five wrapper-call constructor names). -/
def optionCallFlag (node : SyntaxNode) : Bool :=
  is_call_to node "mkOption"
  || is_call_to node "mkNullOrBoolOption"
  || is_call_to node "mkNullOrStrOption"
  || is_call_to node "mkInternalOption"
  || is_call_to node "mkNullableOption"

/-- The `mkEnableOption` idempotence guard:
`Paren::cast(arg).map_or(true, |p| !is_call_to(p.node().first_child().unwrap(), "mdDoc"))`.
A parenthesised expression of a successfully parsed file always has an inner
node; the unreachable `unwrap` on an empty paren is modelled as `false`
(no `mdDoc` call found). -/
def enableGuard (arg : SyntaxNode) : Bool :=
  match parenCast arg with
  | some p =>
    !(match p.children.head? with
      | some c => is_call_to c "mdDoc"
      | none => false)
  | none => true

/-- The description-entry guard and candidate for one attrset entry:
`key_string(&e) == "description" && parent_is_option
 && !e.value().map(|v| is_call_to(v, "mdDoc")).unwrap_or(false)`,
pushing `(e.value().unwrap().text_range(), false)`.  A `KeyValue` of a
successfully parsed file always has a value; the unreachable `unwrap` is
modelled by producing no candidate. -/
def descCandidate (parentIsOption : Bool) (e : SyntaxNode) :
    Option (TextRange × Bool) :=
  if key_string e = "description" && parentIsOption
      && !(((kvValue e).map (fun v => is_call_to v "mdDoc")).getD false) then
    (kvValue e).map (fun v => (v.range, false))
  else
    none

/-- The breadth-first worklist loop of `find_candidates`: pop from the front
of the `VecDeque`, push to the back.  `fuel` only bounds the iteration count;
`find_candidates` supplies enough fuel for the loop to run to completion. -/
def fcLoop : Nat → List (SyntaxNode × Bool) → List (TextRange × Bool) →
    List (TextRange × Bool)
  | _, [], result => result
  | 0, _ :: _, result => result
  | fuel + 1, (node, parentIsOption) :: rest, result =>
    match node.kind with
    | .NODE_APPLY =>
      match applyValue node with
      | some arg =>
        -- the argument is pushed (with the wrapper-call flag), a candidate is
        -- recorded for `mkEnableOption` unless already migrated, and then the
        -- source `continue`s: the node's other children are NOT enqueued.
        fcLoop fuel (rest ++ [(arg, optionCallFlag node)])
          (if is_call_to node "mkEnableOption" && enableGuard arg then
            result ++ [(arg.range, true)]
          else result)
      | none =>
        fcLoop fuel (rest ++ node.children.map (fun c => (c, false))) result
    | .NODE_ATTR_SET =>
      fcLoop fuel (rest ++ node.children.map (fun c => (c, false)))
        (result ++ (attrEntries node).filterMap (descCandidate parentIsOption))
    | _ =>
      fcLoop fuel (rest ++ node.children.map (fun c => (c, false))) result

/-- The comparator of
`result.sort_by(|(a, _), (b, _)| b.start().cmp(&a.start()))`: `a` may precede
`b` exactly when `b`'s start is at most `a`'s (descending starts). -/
def candLE (a b : TextRange × Bool) : Prop := b.1.start ≤ a.1.start

instance : DecidableRel candLE := fun a b => Nat.decLe b.1.start a.1.start

instance : IsTotal (TextRange × Bool) candLE :=
  ⟨fun a b => Nat.le_total b.1.start a.1.start⟩

instance : IsTrans (TextRange × Bool) candLE :=
  ⟨fun _ _ _ h1 h2 => Nat.le_trans h2 h1⟩

/-- Stable sort by descending span start.  Rust's `sort_by` is a stable sort,
and any stable sort by the same comparator produces the same list; insertion
sort realises it here. -/
def sortCands (l : List (TextRange × Bool)) : List (TextRange × Bool) :=
  List.insertionSort candLE l

/-- `find_candidates`, taking the already-parsed tree of the file (the parser
itself is an external collaborator). -/
def find_candidates (tree : SyntaxNode) : List (TextRange × Bool) :=
  sortCands (fcLoop (tree.size + 1) [(tree, false)] [])

/-! Sanity examples for `find_candidates` on trees mirroring what `rnix`
produces for small sources. -/

/-- Leaf node helper for examples. -/
def leafN (k : SyntaxKind) (a b : Nat) (t : String) : SyntaxNode :=
  .mk k ⟨a, b⟩ t []

/-- Tree of `mkEnableOption "widget support"` (spans as in that source). -/
def enableTree : SyntaxNode :=
  .mk .NODE_APPLY ⟨0, 31⟩ "" [
    leafN .NODE_IDENT 0 14 "mkEnableOption",
    leafN .NODE_STRING 15 31 "\"widget support\""]

/-- Tree of `mkEnableOption (lib.mdDoc "widget support")`: already migrated. -/
def enableMigratedTree : SyntaxNode :=
  .mk .NODE_APPLY ⟨0, 42⟩ "" [
    leafN .NODE_IDENT 0 14 "mkEnableOption",
    .mk .NODE_PAREN ⟨15, 42⟩ "" [
      .mk .NODE_APPLY ⟨16, 41⟩ "" [
        .mk .NODE_SELECT ⟨16, 25⟩ "" [
          leafN .NODE_IDENT 16 19 "lib",
          leafN .NODE_IDENT 20 25 "mdDoc"],
        leafN .NODE_STRING 26 41 "\"widget support\""]]]

/-! ## Regex engine

A small backtracking matcher for the regex fragment used by the source, with
Rust's leftmost-first match semantics (earliest start; at that start, the
backtracking-preference-first alternative: greedy repetitions prefer longer,
lazy prefer shorter, alternation prefers the left branch) and `replace_all`
scanning.  Every star/plus in the source's patterns ranges over a
single-character class, which the AST mirrors, so the matcher is structurally
recursive. -/

/-- Captured groups of one match: group index paired with the matched text.
A group is bound at most once per match in all patterns of the source. -/
abbrev Caps := List (Nat × List Char)

/-- `caps[n]`; all referenced groups always participate in the match in the
source's patterns, so the default is never used with sufficient fuel. -/
def getCap (caps : Caps) (n : Nat) : List Char :=
  ((caps.find? (fun pr => pr.1 = n)).map (fun pr => pr.2)).getD []

/-- Rust's Unicode-aware `\s` character class (`White_Space`). -/
def rsWs (c : Char) : Bool :=
  c = ' ' || c = '\t' || c = '\n' || c = '\x0b' || c = '\x0c' || c = '\r'
  || c = '\u0085' || c = ' ' || c = ' '
  || c = ' ' || c = ' ' || c = ' ' || c = ' '
  || c = ' ' || c = ' ' || c = ' ' || c = ' '
  || c = ' ' || c = ' ' || c = ' ' || c = ' '
  || c = ' ' || c = ' ' || c = ' ' || c = '　'

/-- First-order character classes, covering the classes that occur in the
source's patterns. -/
inductive CC where
  | one (c : Char)
  | among (cs : List Char)
  | notOf (cs : List Char)
  | ws

/-- Whether a character belongs to a class. -/
def CC.test : CC → Char → Bool
  | .one c, d => d = c
  | .among cs, d => cs.contains d
  | .notOf cs, d => !(cs.contains d)
  | .ws, d => rsWs d

/-- Regex AST for the fragment used in src/main.rs. -/
inductive Re where
  | eps
  | lit (l : List Char)
  | cls (p : CC)
  | cat (a b : Re)
  | alt (a b : Re)
  | opt (a : Re)
  | starG (p : CC)
  | starL (p : CC)
  | grp (n : Nat) (a : Re)
  | bol

def stripPre : List Char → List Char → Option (List Char)
  | [], s => some s
  | _ :: _, [] => none
  | c :: l, d :: s => if c = d then stripPre l s else none

/-- Continuation of the matcher: previous original character (for `^` in
multi-line mode), remaining suffix, captures so far. -/
abbrev MK := Option Char → List Char → Caps → Option (List Char × Caps)

/-- Greedy star over a character class: prefer consuming more. -/
def starGm (f : CC) :
    Option Char → List Char → Caps → MK → Option (List Char × Caps)
  | p, [], caps, k => k p [] caps
  | p, c :: rest, caps, k =>
    if f.test c then (starGm f (some c) rest caps k) <|> k p (c :: rest) caps
    else k p (c :: rest) caps

/-- Lazy star over a character class: prefer consuming less. -/
def starLm (f : CC) :
    Option Char → List Char → Caps → MK → Option (List Char × Caps)
  | p, [], caps, k => k p [] caps
  | p, c :: rest, caps, k =>
    (k p (c :: rest) caps) <|>
      (if f.test c then starLm f (some c) rest caps k else none)

/-- The previous-character marker after consuming literal `l`. -/
def lastOf (l : List Char) (p : Option Char) : Option Char :=
  match l.getLast? with
  | some d => some d
  | none => p

/-- The continuation-passing matcher.  `p` is the original character just
before the current position (`none` at the start of the haystack). -/
def Re.m : Re → Option Char → List Char → Caps → MK →
    Option (List Char × Caps)
  | .eps, p, s, caps, k => k p s caps
  | .lit l, p, s, caps, k =>
    match stripPre l s with
    | some s' => k (lastOf l p) s' caps
    | none => none
  | .cls _, _, [], _, _ => none
  | .cls f, _, c :: rest, caps, k =>
    if f.test c then k (some c) rest caps else none
  | .cat a b, p, s, caps, k => a.m p s caps (fun p' s' caps' => b.m p' s' caps' k)
  | .alt a b, p, s, caps, k => (a.m p s caps k) <|> (b.m p s caps k)
  | .opt a, p, s, caps, k => (a.m p s caps k) <|> k p s caps
  | .starG f, p, s, caps, k => starGm f p s caps k
  | .starL f, p, s, caps, k => starLm f p s caps k
  | .grp n a, p, s, caps, k =>
    a.m p s caps (fun p' s' caps' =>
      k p' s' ((n, s.take (s.length - s'.length)) :: caps'))
  | .bol, p, s, caps, k => if p = none || p = some '\n' then k p s caps else none

/-- First match (in backtracking preference order) at the current position:
consumed length and captures. -/
def matchAt (r : Re) (p : Option Char) (s : List Char) : Option (Nat × Caps) :=
  (r.m p s [] (fun _ s' caps => some (s', caps))).map
    (fun res => (s.length - res.1.length, res.2))

/-- `Regex::replace_all` scanning: try the earliest starting position, emit
the replacement, continue after the match (after an empty match, the current
character is copied and scanning resumes one character later, as in the regex
crate).  `fuel` only bounds the iteration count; `replaceAll` supplies
`s.length`, which is sufficient because every iteration consumes at least one
character of the haystack. -/
def replaceAllGo (r : Re) (rep : Caps → List Char) :
    Nat → Option Char → List Char → List Char
  | _, p, [] =>
    match matchAt r p [] with
    | some (_, caps) => rep caps
    | none => []
  | 0, _, s => s
  | fuel + 1, p, c :: rest =>
    match matchAt r p (c :: rest) with
    | some (0, caps) => rep caps ++ c :: replaceAllGo r rep fuel (some c) rest
    | some (len + 1, caps) =>
      rep caps ++ replaceAllGo r rep fuel
        (lastOf ((c :: rest).take (len + 1)) p) ((c :: rest).drop (len + 1))
    | none => c :: replaceAllGo r rep fuel (some c) rest

def replaceAll (r : Re) (rep : Caps → List Char) (s : List Char) : List Char :=
  replaceAllGo r rep s.length none s

/-! ### Pattern construction helpers -/

def rstr (s : String) : Re := Re.lit s.data

def rseq (l : List Re) : Re := l.foldr Re.cat Re.eps

/-- Greedy `+` over a class, as `cls` then greedy star. -/
def plusG (f : CC) : Re := Re.cat (Re.cls f) (Re.starG f)

/-- Lazy `+?` over a class. -/
def plusL (f : CC) : Re := Re.cat (Re.cls f) (Re.starL f)

/-- A negated character class `[^c]`. -/
def notCh (c : Char) : CC := CC.notOf [c]

def eqCh (c : Char) : CC := CC.one c

/-- `.` with `dot_matches_new_line(true)` (all of `convert_one`'s patterns). -/
def anyCh : CC := CC.notOf []

/-- `.` without `dot_matches_new_line` (the `normalize` patterns). -/
def anyNoNl : CC := CC.notOf ['\n']

/-- The backtick character. -/
def bq : Char := '\x60'

/-! ### Replacement strategies -/

/-- A plain replacement-string template: literal pieces and `$n` references. -/
inductive TItem where
  | s (t : String)
  | g (n : Nat)

def expandT (tmpl : List TItem) (caps : Caps) : List Char :=
  tmpl.foldr
    (fun i acc => (match i with | .s t => t.data | .g n => getCap caps n) ++ acc)
    []

/-- `str::replace` worker; `fuel` bounds iterations, `replaceStr` supplies
`s.length`, sufficient because each step consumes at least one character. -/
def replaceStrGo (pat rep : List Char) : Nat → List Char → List Char
  | _, [] => []
  | 0, s => s
  | fuel + 1, c :: rest =>
    if pat.isPrefixOf (c :: rest) && !pat.isEmpty then
      rep ++ replaceStrGo pat rep fuel ((c :: rest).drop pat.length)
    else
      c :: replaceStrGo pat rep fuel rest

/-- Rust `str::replace`: replace all non-overlapping occurrences, scanning
left to right. -/
def replaceStr (pat rep s : List Char) : List Char :=
  replaceStrGo pat rep s.length s

/-- `markdown_escape` (src/main.rs lines 180-186): backslash-escape backtick
and asterisk, then decode the three entities, in the source's order. -/
def markdown_escape (s : List Char) : List Char :=
  replaceStr "&amp;".data "&".data
    (replaceStr "&gt;".data ">".data
      (replaceStr "&lt;".data "<".data
        (replaceStr "*".data "\\*".data
          (replaceStr [bq] ('\\' :: [bq]) s))))

/-- The `SurroundPat(pre, template, post)` replacer (src/main.rs lines
188-198): `pre`, then the `markdown_escape`d expansion of the template,
then `post`. -/
def surroundPat (pre : String) (tmpl : List TItem) (post : String)
    (caps : Caps) : List Char :=
  pre.data ++ markdown_escape (expandT tmpl caps) ++ post.data

/-- The `CodePat(prefix)` replacer (src/main.rs lines 200-209): prefix, then
a backtick-quoted copy of group 1 with only `&gt;`/`&lt;` decoded (no
escaping, no `&amp;` decoding). -/
def codePat (pre : String) (caps : Caps) : List Char :=
  pre.data ++ [bq]
    ++ replaceStr "&lt;".data "<".data
        (replaceStr "&gt;".data ">".data (getCap caps 1))
    ++ [bq]

/-! ### The `convert_one` rewrite chain (src/main.rs lines 211-348)

Each pattern is transcribed from the `RegexBuilder` literal at the cited
lines; all are built with `multi_line(true)` and `dot_matches_new_line(true)`
(so `.` is `anyCh` and `^` is `Re.bol`).  The commented-out `replaceable`,
`code` and `package` rules of the source are omitted here as they are in the
source. -/

/-- `<literal>([^`]*?)</literal>` → `CodePat("")`. -/
def cpLiteral : Re :=
  rseq [rstr "<literal>", Re.grp 1 (Re.starL (notCh bq)), rstr "</literal>"]

/-- `<filename>([^`]*?)</filename>` → `CodePat("{file}")`. -/
def cpFilename : Re :=
  rseq [rstr "<filename>", Re.grp 1 (Re.starL (notCh bq)), rstr "</filename>"]

/-- `<option>([^`]*?)</option>` → `CodePat("{option}")`. -/
def cpOption : Re :=
  rseq [rstr "<option>", Re.grp 1 (Re.starL (notCh bq)), rstr "</option>"]

/-- `<command>([^`]*?)</command>` → `CodePat("{command}")`. -/
def cpCommand : Re :=
  rseq [rstr "<command>", Re.grp 1 (Re.starL (notCh bq)), rstr "</command>"]

/-- `<link\s*xlink:href=\s*"([^"]+)"\s*/>` → `SurroundPat("<", "$1", ">")`. -/
def cpLinkBare : Re :=
  rseq [rstr "<link", Re.starG CC.ws, rstr "xlink:href=", Re.starG CC.ws,
        rstr "\"", Re.grp 1 (plusG (notCh '"')), rstr "\"", Re.starG CC.ws,
        rstr "/>"]

/-- `<link\s*xlink:href=\s*"([^"]+)">(.*?)</link>` →
`SurroundPat("", "[$2]($1)", "")`. -/
def cpLinkBody : Re :=
  rseq [rstr "<link", Re.starG CC.ws, rstr "xlink:href=", Re.starG CC.ws,
        rstr "\"", Re.grp 1 (plusG (notCh '"')), rstr "\">",
        Re.grp 2 (Re.starL anyCh), rstr "</link>"]

/-- `<xref\s*linkend="([^"]+)"\s*/>` → `SurroundPat("[](#", "$1", ")")`. -/
def cpXref : Re :=
  rseq [rstr "<xref", Re.starG CC.ws, rstr "linkend=\"",
        Re.grp 1 (plusG (notCh '"')), rstr "\"", Re.starG CC.ws, rstr "/>"]

/-- `<link linkend="(.+?)">(.*?)</link>` →
`SurroundPat("", "[$2](#$1)", "")`. -/
def cpLinkend : Re :=
  rseq [rstr "<link linkend=\"", Re.grp 1 (plusL anyCh), rstr "\">",
        Re.grp 2 (Re.starL anyCh), rstr "</link>"]

/-- `<emphasis>([^*]*?)</emphasis>` → `SurroundPat("*", "$1", "*")`. -/
def cpEmph : Re :=
  rseq [rstr "<emphasis>", Re.grp 1 (Re.starL (notCh '*')), rstr "</emphasis>"]

/-- `<emphasis role="strong">([^*]*?)</emphasis>` →
`SurroundPat("**", "$1", "**")`. -/
def cpEmphStrong : Re :=
  rseq [rstr "<emphasis role=\"strong\">", Re.grp 1 (Re.starL (notCh '*')),
        rstr "</emphasis>"]

/-- The `citerefentry` pattern (built with `ignore_whitespace(true)`, so the
literal whitespace of the pattern source is stripped):
`<citerefentry>\s*<refentrytitle>\s*(.*?)\s*</refentrytitle>\s*<manvolnum>\s*(.*?)\s*</manvolnum>\s*</citerefentry>`
→ `"{manpage}`$1($2)`"`. -/
def cpCiteref : Re :=
  rseq [rstr "<citerefentry>", Re.starG CC.ws,
        rstr "<refentrytitle>", Re.starG CC.ws, Re.grp 1 (Re.starL anyCh),
        Re.starG CC.ws, rstr "</refentrytitle>", Re.starG CC.ws,
        rstr "<manvolnum>", Re.starG CC.ws, Re.grp 2 (Re.starL anyCh),
        Re.starG CC.ws, rstr "</manvolnum>", Re.starG CC.ws,
        rstr "</citerefentry>"]

/-- `<programlisting language="([^"]+)">` → `"```$1"`. -/
def cpProgLang : Re :=
  rseq [rstr "<programlisting language=\"", Re.grp 1 (plusG (notCh '"')),
        rstr "\">"]

/-- `</?programlisting>` → `"```"`. -/
def cpProg : Re :=
  rseq [rstr "<", Re.opt (rstr "/"), rstr "programlisting>"]

/-- `<varname>([^*]*?)</varname>` → `"{var}`$1`"`. -/
def cpVarname : Re :=
  rseq [rstr "<varname>", Re.grp 1 (Re.starL (notCh '*')), rstr "</varname>"]

/-- `<envar>([^*]*?)</envar>` → `"{env}`$1`"`. -/
def cpEnvar : Re :=
  rseq [rstr "<envar>", Re.grp 1 (Re.starL (notCh '*')), rstr "</envar>"]

/-- `^( *)<note>(?:\s*<para>)?(.*?)(?:</para>\s*)?</note>` →
`"$1::: {.note}\n$1$2\n$1:::"`, and the same shape for `warning` and
`important`. -/
def cpAdmonition (tag : String) : Re :=
  rseq [Re.bol, Re.grp 1 (Re.starG (eqCh ' ')), rstr ("<" ++ tag ++ ">"),
        Re.opt (rseq [Re.starG CC.ws, rstr "<para>"]),
        Re.grp 2 (Re.starL anyCh),
        Re.opt (rseq [rstr "</para>", Re.starG CC.ws]),
        rstr ("</" ++ tag ++ ">")]

/-- The admonition replacement `"$1::: {.CLASS}\n$1$2\n$1:::"`. -/
def admonitionRepl (cl : String) : List TItem :=
  [.g 1, .s ("::: \x7b." ++ cl ++ "\x7d\n"), .g 1, .g 2, .s "\n", .g 1,
   .s ":::"]

/-- `(\n+)( *)</para>(\n *)?<para>(\n+)` → `"\n\n"`. -/
def cpParaBreak : Re :=
  rseq [Re.grp 1 (plusG (eqCh '\n')), Re.grp 2 (Re.starG (eqCh ' ')),
        rstr "</para>",
        Re.opt (Re.grp 3 (rseq [rstr "\n", Re.starG (eqCh ' ')])),
        rstr "<para>", Re.grp 4 (plusG (eqCh '\n'))]

/-- The rewrite chain of `convert_one` applied to the chunk, in source
order. -/
def convertChunk (chunk : List Char) : List Char :=
  let nc := replaceAll cpLiteral (codePat "") chunk
  let nc := replaceAll cpFilename (codePat "\x7bfile\x7d") nc
  let nc := replaceAll cpOption (codePat "\x7boption\x7d") nc
  let nc := replaceAll cpCommand (codePat "\x7bcommand\x7d") nc
  let nc := replaceAll cpLinkBare (surroundPat "<" [.g 1] ">") nc
  let nc := replaceAll cpLinkBody
    (surroundPat "" [.s "[", .g 2, .s "](", .g 1, .s ")"] "") nc
  let nc := replaceAll cpXref (surroundPat "[](#" [.g 1] ")") nc
  let nc := replaceAll cpLinkend
    (surroundPat "" [.s "[", .g 2, .s "](#", .g 1, .s ")"] "") nc
  let nc := replaceAll cpEmph (surroundPat "*" [.g 1] "*") nc
  let nc := replaceAll cpEmphStrong (surroundPat "**" [.g 1] "**") nc
  let nc := replaceAll cpCiteref
    (expandT [.s "\x7bmanpage\x7d\x60", .g 1, .s "(", .g 2, .s ")\x60"]) nc
  let nc := replaceAll cpProgLang (expandT [.s "\x60\x60\x60", .g 1]) nc
  let nc := replaceAll cpProg (expandT [.s "\x60\x60\x60"]) nc
  let nc := replaceAll cpVarname
    (expandT [.s "\x7bvar\x7d\x60", .g 1, .s "\x60"]) nc
  let nc := replaceAll cpEnvar
    (expandT [.s "\x7benv\x7d\x60", .g 1, .s "\x60"]) nc
  let nc := replaceAll (cpAdmonition "note") (expandT (admonitionRepl "note")) nc
  let nc := replaceAll (cpAdmonition "warning")
    (expandT (admonitionRepl "warning")) nc
  let nc := replaceAll (cpAdmonition "important")
    (expandT (admonitionRepl "important")) nc
  let nc := replaceAll cpParaBreak (expandT [.s "\n\n"]) nc
  nc

/-- `convert_one(s, pos, add_parens)`: rewrite the chunk at `pos` and
reassemble `prefix + lpar + "lib.mdDoc " + new_chunk + rpar + suffix`. -/
def convert_one (s : List Char) (pos : TextRange) (add_parens : Bool) :
    List Char :=
  let pfx := s.take pos.start
  let chunk := (s.take pos.stop).drop pos.start
  let sfx := s.drop pos.stop
  let new_chunk := convertChunk chunk
  let lpar : List Char := if add_parens then "(".data else []
  let rpar : List Char := if add_parens then ")".data else []
  pfx ++ lpar ++ "lib.mdDoc ".data ++ new_chunk ++ rpar ++ sfx

/-! ### The `normalize` pattern list (src/main.rs lines 371-396)

All patterns are built with `multi_line(true)` only, so `.` does not match a
newline (`anyNoNl`) and `^` is `Re.bol`. -/

/-- The thirteen `(pattern, replacement)` pairs of `normalize`'s `PATTERNS`
array, in order. -/
def normPatterns : List (Re × (Caps → List Char)) :=
  [ (Re.cls (CC.among ['‘', '’']), expandT [.s "'"]),
    (Re.cls (CC.among ['“', '”']), expandT [.s "\""]),
    (rstr "…", expandT [.s "..."]),
    (plusG (eqCh '\n'), expandT [.s "\n"]),
    (rseq [plusG CC.ws, Re.grp 1 (Re.alt (rstr "<") (rstr ">"))],
      expandT [.s "\n", .g 1]),
    (rseq [rstr ">", plusG CC.ws], expandT [.s ">\n"]),
    (rseq [Re.opt (rstr "\n"), Re.opt (rstr "</para>"),
           rstr "<programlisting", Re.grp 1 (Re.starG (notCh '>')),
           rstr ">", rstr "\n"],
      expandT [.s "</para><programlisting", .g 1, .s ">"]),
    (rseq [Re.bol, rstr "</programlisting>",
           Re.opt (rseq [Re.opt (rstr "\n"), rstr "</para>"]),
           Re.opt (rseq [Re.opt (rstr "\n"), rstr "<para>"]),
           Re.opt (rstr "\n")],
      expandT [.s "</programlisting><para>"]),
    (rseq [Re.starG CC.ws, rstr "</para>", Re.starG CC.ws, rstr "<para>",
           Re.starG CC.ws],
      expandT [.s "\n</para><para>\n"]),
    (rstr "\n<para>", expandT [.s "<para>"]),
    (rstr "</para>\n", expandT [.s "</para>"]),
    (rseq [rstr "<",
           Re.grp 1 (Re.alt (rstr "citerefentry")
             (Re.alt (rstr "/refentrytitle") (rstr "/manvolnum"))),
           rstr ">\n"],
      expandT [.s "<", .g 1, .s ">"]),
    (rseq [rstr "<link xlink:href=\"", plusG (notCh '"'), rstr "\">",
           Re.grp 1 (rseq [rstr "<citerefentry>", Re.starG anyNoNl,
                           rstr "</citerefentry>"]),
           rstr "</link>"],
      expandT [.g 1]) ]

/-- `normalize` (src/main.rs lines 371-396): apply the thirteen replacements
in order over the whole build output. -/
def normalize (xml : List Char) : List Char :=
  normPatterns.foldl (fun x pr => replaceAll pr.1 pr.2 x) xml

/-! ## Tree analysis helpers (used only to state and prove properties) -/

-- All nodes of a tree (the node itself and, recursively, all nodes of its
-- children), in preorder.
mutual
def allNodes : SyntaxNode → List SyntaxNode
  | .mk k r t cs => .mk k r t cs :: allNodesL cs
def allNodesL : List SyntaxNode → List SyntaxNode
  | [] => []
  | c :: cs => allNodes c ++ allNodesL cs
end

-- Well-formedness of a parse tree as produced by `rnix`: every node's span
-- is ordered and every child's span lies within its parent's span.
mutual
def wfNode : SyntaxNode → Bool
  | .mk _ r _ cs => decide (r.start ≤ r.stop) && wfChildren r cs
def wfChildren (r : TextRange) : List SyntaxNode → Bool
  | [] => true
  | c :: cs =>
    decide (r.start ≤ c.range.start) && decide (c.range.stop ≤ r.stop)
      && wfNode c && wfChildren r cs
end

/-- Two spans overlap when each starts before the other ends. -/
def rangesOverlap (a b : TextRange) : Bool :=
  a.start < b.stop && b.start < a.stop

/-- An attrset (if `m` is one) has all of its `description` entries already
wrapped in a call to the migrated marker `mdDoc`. -/
def descAllMarked (m : SyntaxNode) : Bool :=
  !(m.kind = .NODE_ATTR_SET)
  || (attrEntries m).all (fun e =>
      !(key_string e = "description")
      || (((kvValue e).map (fun v => is_call_to v "mdDoc")).getD false))

/-- The migrated-marker guard holds at a node: if it is an `mkEnableOption`
call, its argument is a parenthesised `mdDoc` call; if it is one of the five
option-constructor wrapper calls, every `description` entry of its argument
(when the argument is an attrset, i.e. an option body) is an `mdDoc` call. -/
def migratedOK (n : SyntaxNode) : Bool :=
  (!(is_call_to n "mkEnableOption")
    || (match applyValue n with
        | some arg => !(enableGuard arg)
        | none => true))
  && (!(optionCallFlag n)
    || (match applyValue n with
        | some arg => descAllMarked arg
        | none => true))

/-! ## Build oracle adapter and verification orchestrator
(src/main.rs lines 350-369 and 398-466) -/

/-- The diagnostic part of a persisted failure-artifact bundle: either both
raw and normalized outputs of the two builds (`before.raw.xml`, `before.xml`,
`after.raw.xml`, `after.xml`) on a content mismatch, or a single error text
(`after.error`) on a build failure. -/
inductive FailDetail where
  | mismatch (beforeRaw beforeNorm afterRaw afterNorm : List Char)
  | buildError (e : List Char)
deriving DecidableEq

/-- One failure-artifact bundle (`write_failure`, src/main.rs lines 431-448):
the pre-image source (`before.nix`), the post-image source (`after.nix`) and
the diagnostic part. -/
structure FailRec where
  beforeNix : List Char
  afterNix : List Char
  detail : FailDetail
deriving DecidableEq

/-- `build_manual(dir, import)` (src/main.rs lines 350-369): the external
`nix-build` invocation is the opaque `oracle`, applied to the file content
currently written into the workspace.  `assert!(import.is_none())` panics
(`none`) whenever the import hint is present. -/
def build_manual (oracle : List Char → Except (List Char) (List Char))
    (written : List Char) (imp : Option (List Char)) :
    Option (Except (List Char) (List Char)) :=
  if imp.isSome then none else some (oracle written)

/-- The per-candidate loop of `convert_file` (src/main.rs lines 426-462).
State: remaining candidates, enumeration index `i`, current working
`content`, failure records so far, number of builds so far.  `initial`, `old`
and `old_normalized` are the loop-invariant values bound before the loop;
returns `none` on a panic of `build_manual`. -/
def candLoop (oracle : List Char → Except (List Char) (List Char))
    (imp : Option (List Char)) (initial old old_normalized : List Char) :
    List (TextRange × Bool) → Nat → List Char → List (Nat × FailRec) → Nat →
    Option (List Char × List (Nat × FailRec) × Nat)
  | [], _, content, recs, builds => some (content, recs, builds)
  | (range, add_parens) :: rest, i, content, recs, builds =>
    let change := convert_one content range add_parens
    match build_manual oracle change imp with
    | none => none
    | some (.error e) =>
      candLoop oracle imp initial old old_normalized rest (i + 1) content
        (recs ++ [(i, ⟨initial, change, .buildError e⟩)]) (builds + 1)
    | some (.ok changed) =>
      let changed_normalized := normalize changed
      if old_normalized = changed_normalized then
        candLoop oracle imp initial old old_normalized rest (i + 1) change
          recs (builds + 1)
      else
        candLoop oracle imp initial old old_normalized rest (i + 1) content
          (recs ++ [(i, ⟨initial, change,
            .mismatch old old_normalized changed changed_normalized⟩)])
          (builds + 1)

deriving instance DecidableEq for Except

/-- Observable outcome of `convert_file`: the returned content (or the
`bail!` diagnostic), the failure records written, and how many builds and
workspaces (tempdir + `cp --reflink`) were made. -/
structure ConvOut where
  result : Except (List Char) (List Char)
  failures : List (Nat × FailRec)
  builds : Nat
  workspaces : Nat
deriving DecidableEq

/-- `convert_file` (src/main.rs lines 398-466).  The file has been read into
`content`; `parseFn` is the external parser (`rnix::parse`), `oracle` the
external build, `path` the file path (passed as the import hint when `imp`).
The filesystem copy into the workspace is modelled as succeeding (a copy
failure bails before any build and is exercised by no claim).  `none` models
a panic of the `build_manual` assertion. -/
def convert_file (parseFn : List Char → SyntaxNode)
    (oracle : List Char → Except (List Char) (List Char))
    (imp : Bool) (path : List Char) (content : List Char) : Option ConvOut :=
  let initial_content := content
  let candidates := find_candidates (parseFn content)
  if candidates.isEmpty then
    some ⟨.ok content, [], 0, 0⟩
  else
    let impOpt : Option (List Char) := if imp then some path else none
    match build_manual oracle initial_content impOpt with
    | none => none
    | some (.error e) => some ⟨.error e, [], 1, 1⟩
    | some (.ok old) =>
      let old_normalized := normalize old
      match candLoop oracle impOpt initial_content old old_normalized
          candidates 0 content [] 1 with
      | none => none
      | some (c, recs, builds) => some ⟨.ok c, recs, builds, 1⟩

/-- The argument handling of `main` (src/main.rs lines 468-472): an optional
leading `--import` flag selects the import hint and how many leading argv
entries to skip. -/
def mainArgs (argv : List String) : Nat × Bool :=
  match argv.drop 1 with
  | s :: _ => if s = "--import" then (2, true) else (1, false)
  | [] => (1, false)

/-! ## Concrete trees and auxiliary predicates used by the theorems -/

/-- The tree of `mkEnableOption "x"` as it occurs inside the callee below. -/
def innerEnableTree : SyntaxNode :=
  .mk .NODE_APPLY ⟨4, 24⟩ "" [
    leafN .NODE_IDENT 4 18 "mkEnableOption",
    leafN .NODE_STRING 19 24 "\"x\""]

/-- The tree of `(g (mkEnableOption "x")) y`: an application whose callee
subtree contains an `mkEnableOption` option declaration. -/
def calleeNestedTree : SyntaxNode :=
  .mk .NODE_APPLY ⟨0, 28⟩ "" [
    .mk .NODE_PAREN ⟨0, 26⟩ "" [
      .mk .NODE_APPLY ⟨1, 25⟩ "" [
        leafN .NODE_IDENT 1 2 "g",
        .mk .NODE_PAREN ⟨3, 25⟩ "" [innerEnableTree]]],
    leafN .NODE_IDENT 27 28 "y"]

/-- The tree of `mkOption { description = lib.mdDoc "d"; }` (already
migrated). -/
def optionMigratedTree : SyntaxNode :=
  .mk .NODE_APPLY ⟨0, 46⟩ "" [
    leafN .NODE_IDENT 0 8 "mkOption",
    .mk .NODE_ATTR_SET ⟨9, 46⟩ "" [
      .mk .NODE_KEY_VALUE ⟨11, 44⟩ "" [
        .mk .NODE_KEY ⟨11, 22⟩ "" [leafN .NODE_IDENT 11 22 "description"],
        .mk .NODE_APPLY ⟨25, 43⟩ "" [
          .mk .NODE_SELECT ⟨25, 34⟩ "" [
            leafN .NODE_IDENT 25 28 "lib",
            leafN .NODE_IDENT 29 34 "mdDoc"],
          leafN .NODE_STRING 35 38 "\"d\""]]]]

/-- An already-fully-migrated file holding both migrated forms. -/
def migratedFileTree : SyntaxNode :=
  .mk .OTHER ⟨0, 99⟩ "" [enableMigratedTree, optionMigratedTree]

/-- The tree of `mkOption { description = mkEnableOption "y"; }`: the
`description` value itself contains an `mkEnableOption` call. -/
def descTree : SyntaxNode :=
  .mk .NODE_APPLY ⟨0, 46⟩ "" [
    leafN .NODE_IDENT 0 8 "mkOption",
    .mk .NODE_ATTR_SET ⟨9, 46⟩ "" [
      .mk .NODE_KEY_VALUE ⟨11, 44⟩ "" [
        .mk .NODE_KEY ⟨11, 22⟩ "" [leafN .NODE_IDENT 11 22 "description"],
        .mk .NODE_APPLY ⟨25, 43⟩ "" [
          leafN .NODE_IDENT 25 39 "mkEnableOption",
          leafN .NODE_STRING 40 43 "\"y\""]]]]

/-- Whether the regex can match the empty string. -/
def nullable : Re → Bool
  | .eps => true
  | .lit l => l.isEmpty
  | .cls _ => false
  | .cat a b => nullable a && nullable b
  | .alt a b => nullable a || nullable b
  | .opt _ => true
  | .starG _ => true
  | .starL _ => true
  | .grp _ a => nullable a
  | .bol => true

/-- Whether a match of the regex can begin by consuming the character `c`. -/
def canStart : Re → Char → Bool
  | .eps, _ => false
  | .lit [], _ => false
  | .lit (d :: _), c => c = d
  | .cls f, c => f.test c
  | .cat a b, c => canStart a c || (nullable a && canStart b c)
  | .alt a b, c => canStart a c || canStart b c
  | .opt a, c => canStart a c
  | .starG f, c => f.test c
  | .starL f, c => f.test c
  | .grp _ a, c => canStart a c
  | .bol, _ => false

/-- The characters any `normalize` pattern can start with: whitespace, angle
brackets, and the folded Unicode punctuation. -/
def specialChar (c : Char) : Bool :=
  rsWs c || c = '<' || c = '>' || c = '‘' || c = '’' || c = '“' || c = '”'
    || c = '…'

/-- Conservative check that every character of a class is special. -/
def startsSpecialCC : CC → Bool
  | .one c => specialChar c
  | .among cs => cs.all specialChar
  | .notOf _ => false
  | .ws => true

/-- Conservative check that every character a match can start with is
special. -/
def startsSpecial : Re → Bool
  | .eps => true
  | .lit [] => true
  | .lit (d :: _) => specialChar d
  | .cls f => startsSpecialCC f
  | .cat a b => startsSpecial a && (!(nullable a) || startsSpecial b)
  | .alt a b => startsSpecial a && startsSpecial b
  | .opt a => startsSpecial a
  | .starG f => startsSpecialCC f
  | .starL f => startsSpecialCC f
  | .grp _ a => startsSpecial a
  | .bol => true


/-! Sanity checks: the locator on a fresh and on an already-migrated
`mkEnableOption` call (the spec's scenario). -/

example : find_candidates enableTree = [(⟨15, 31⟩, true)] := by decide

example : find_candidates enableMigratedTree = [] := by decide

/-! ## Generic helper lemmas -/

theorem take_left_of_append (l₁ l₂ : List Char) :
    (l₁ ++ l₂).take l₁.length = l₁ := by
  simp

theorem drop_tail_of_append (l₁ l₂ : List Char) :
    (l₁ ++ l₂).drop ((l₁ ++ l₂).length - l₂.length) = l₂ := by
  rw [List.length_append, Nat.add_sub_cancel, List.drop_left]

/-! ## Claim theorems -/

/-- Claim C7: for every input string `s`, span `pos` within `s` and flag
`requires_parens`, `convert_one` returns exactly the bytes of `s` before
`pos.start` verbatim, then an opening parenthesis if `requires_parens`, then
the fixed migrated-marker prefix `"lib.mdDoc "`, then the rewritten chunk,
then a closing parenthesis if `requires_parens`, then the bytes of `s` from
`pos.end` onward verbatim; only the span's substring is rewritten, and the
prefix and suffix pass through unchanged. -/
theorem c7_convert_one_frame (s : List Char) (pos : TextRange) (b : Bool)
    (h1 : pos.start ≤ pos.stop) (h2 : pos.stop ≤ s.length) :
    convert_one s pos b =
      s.take pos.start ++ (if b then "(".data else []) ++ "lib.mdDoc ".data
        ++ convertChunk ((s.take pos.stop).drop pos.start)
        ++ (if b then ")".data else []) ++ s.drop pos.stop
    ∧ (convert_one s pos b).take pos.start = s.take pos.start
    ∧ (convert_one s pos b).drop
        ((convert_one s pos b).length - (s.length - pos.stop)) =
      s.drop pos.stop := by
  have hs : pos.start ≤ s.length := h1.trans h2
  have heq : convert_one s pos b =
      s.take pos.start ++ (if b then "(".data else []) ++ "lib.mdDoc ".data
        ++ convertChunk ((s.take pos.stop).drop pos.start)
        ++ (if b then ")".data else []) ++ s.drop pos.stop := rfl
  have hra : convert_one s pos b =
      s.take pos.start ++ ((if b then "(".data else []) ++ ("lib.mdDoc ".data
        ++ (convertChunk ((s.take pos.stop).drop pos.start)
          ++ ((if b then ")".data else []) ++ s.drop pos.stop)))) := by
    rw [heq]; simp [List.append_assoc]
  refine ⟨heq, ?_, ?_⟩
  · have hl : (s.take pos.start).length = pos.start := by
      rw [List.length_take]; omega
    rw [hra]
    calc (s.take pos.start ++ _).take pos.start
        = (s.take pos.start ++ _).take (s.take pos.start).length := by rw [hl]
      _ = s.take pos.start := take_left_of_append _ _
  · have hsfx : s.length - pos.stop = (s.drop pos.stop).length := by
      rw [List.length_drop]
    rw [heq, hsfx]
    exact drop_tail_of_append _ _

/-- Witness for C7 at a concrete input. -/
theorem c7_convert_one_frame_witness :
    ((⟨4, 24⟩ : TextRange).start ≤ (⟨4, 24⟩ : TextRange).stop
      ∧ (⟨4, 24⟩ : TextRange).stop ≤ "a = <literal>x</literal>;".data.length)
    ∧ (convert_one "a = <literal>x</literal>;".data ⟨4, 24⟩ false =
        "a = <literal>x</literal>;".data.take 4 ++ (if false then "(".data else [])
          ++ "lib.mdDoc ".data
          ++ convertChunk (("a = <literal>x</literal>;".data.take 24).drop 4)
          ++ (if false then ")".data else [])
          ++ "a = <literal>x</literal>;".data.drop 24
      ∧ (convert_one "a = <literal>x</literal>;".data ⟨4, 24⟩ false).take 4 =
          "a = <literal>x</literal>;".data.take 4
      ∧ (convert_one "a = <literal>x</literal>;".data ⟨4, 24⟩ false).drop
          ((convert_one "a = <literal>x</literal>;".data ⟨4, 24⟩ false).length
            - ("a = <literal>x</literal>;".data.length - 24)) =
          "a = <literal>x</literal>;".data.drop 24) :=
  ⟨⟨by decide, by decide⟩,
   c7_convert_one_frame "a = <literal>x</literal>;".data ⟨4, 24⟩ false
     (by decide) (by decide)⟩

/-- Claim C10: when the candidate locator finds zero candidates for a file,
`convert_file` returns the content unchanged, before creating any workspace,
copying any tree, or invoking the build oracle (zero builds, zero workspaces,
the oracle and the import flag are never consulted). -/
theorem c10_zero_candidates_early_return
    (parseFn : List Char → SyntaxNode)
    (oracle : List Char → Except (List Char) (List Char))
    (imp : Bool) (path content : List Char)
    (h : find_candidates (parseFn content) = []) :
    convert_file parseFn oracle imp path content =
      some ⟨.ok content, [], 0, 0⟩ := by
  unfold convert_file
  simp [h]

/-- Witness for C10 at a concrete input. -/
theorem c10_zero_candidates_early_return_witness :
    find_candidates ((fun _ => leafN .NODE_IDENT 0 1 "x") "x".data) = []
    ∧ convert_file (fun _ => leafN .NODE_IDENT 0 1 "x")
        (fun c => .ok c) false "f.nix".data "x".data =
        some ⟨.ok "x".data, [], 0, 0⟩ :=
  ⟨by decide,
   c10_zero_candidates_early_return _ _ _ _ _ (by decide)⟩

/-- Claim C9 (code bug): `main` accepts a leading `--import` flag and threads
`import = true` down to `convert_file`, but `build_manual` begins with
`assert!(import.is_none())`, so as soon as a file has at least one candidate
the very first (baseline) build panics; the import hint never reaches the
build expression.  Shown on `mkEnableOption "widget support"`. -/
theorem c9_import_assert_panics :
    mainArgs ["nix-doc-munge", "--import", "mod.nix"] = (2, true)
    ∧ build_manual (fun c => .ok c) "x".data (some "mod.nix".data) = none
    ∧ convert_file (fun _ => enableTree) (fun c => .ok c) true "mod.nix".data
        "mkEnableOption \"widget support\"".data = none := by
  exact ⟨rfl, rfl, by decide⟩

/-- Claim C8: when the rebuild of a candidate fails, the failure record
carries only the error text as its build-output part (`FailDetail.buildError`
holds nothing but the diagnostic, unlike `FailDetail.mismatch`), the
candidate is not committed (the working content passed on is unchanged), and
the loop continues with the next candidate. -/
theorem c8_build_failure_skips
    (oracle : List Char → Except (List Char) (List Char))
    (initial old oldN content : List Char) (range : TextRange) (ap : Bool)
    (rest : List (TextRange × Bool)) (i : Nat)
    (recs : List (Nat × FailRec)) (builds : Nat) (e : List Char)
    (h : oracle (convert_one content range ap) = .error e) :
    candLoop oracle none initial old oldN ((range, ap) :: rest) i content
        recs builds =
      candLoop oracle none initial old oldN rest (i + 1) content
        (recs ++ [(i, ⟨initial, convert_one content range ap, .buildError e⟩)])
        (builds + 1) := by
  conv_lhs => rw [candLoop]
  simp [build_manual, h]

/-- Witness for C8 at a concrete input (an oracle that always fails). -/
theorem c8_build_failure_skips_witness :
    ((fun _ => (.error "boom".data : Except (List Char) (List Char)))
        (convert_one "x".data ⟨0, 1⟩ false) = .error "boom".data)
    ∧ candLoop (fun _ => .error "boom".data) none "x".data "o".data "n".data
        [(⟨0, 1⟩, false)] 0 "x".data [] 1 =
      candLoop (fun _ => .error "boom".data) none "x".data "o".data "n".data
        [] 1 "x".data
        [(0, ⟨"x".data, convert_one "x".data ⟨0, 1⟩ false, .buildError "boom".data⟩)]
        2 :=
  ⟨rfl,
   c8_build_failure_skips _ _ _ _ _ _ _ _ _ _ _ _ rfl⟩

/-- Claim C1: a candidate is committed (the working content becomes the
rewritten text) exactly when its rebuild succeeds and the normalized new
output equals the normalized original baseline.  The baseline target is bound
once, as the normalization of the very first (pre-migration) build
(`normalize old` below), and every step of the loop passes it on unchanged —
every candidate is compared against the normalization of the first build, not
against the most recently committed state. -/
theorem c1_commit_iff_baseline_fixed
    (parseFn : List Char → SyntaxNode)
    (oracle : List Char → Except (List Char) (List Char))
    (path content old : List Char)
    (h1 : find_candidates (parseFn content) ≠ [])
    (h2 : oracle content = .ok old) :
    convert_file parseFn oracle false path content =
      (candLoop oracle none content old (normalize old)
          (find_candidates (parseFn content)) 0 content [] 1).map
        (fun r => ⟨.ok r.1, r.2.1, r.2.2, 1⟩)
    ∧ ∀ (initial old' oldN cont : List Char) (range : TextRange) (ap : Bool)
        (rest : List (TextRange × Bool)) (i : Nat)
        (recs : List (Nat × FailRec)) (builds : Nat),
        (∀ changed, oracle (convert_one cont range ap) = .ok changed →
          candLoop oracle none initial old' oldN ((range, ap) :: rest) i cont
              recs builds =
            if oldN = normalize changed then
              candLoop oracle none initial old' oldN rest (i + 1)
                (convert_one cont range ap) recs (builds + 1)
            else
              candLoop oracle none initial old' oldN rest (i + 1) cont
                (recs ++ [(i, ⟨initial, convert_one cont range ap,
                  .mismatch old' oldN changed (normalize changed)⟩)])
                (builds + 1))
        ∧ (∀ e, oracle (convert_one cont range ap) = .error e →
          candLoop oracle none initial old' oldN ((range, ap) :: rest) i cont
              recs builds =
            candLoop oracle none initial old' oldN rest (i + 1) cont
              (recs ++ [(i, ⟨initial, convert_one cont range ap,
                .buildError e⟩)])
              (builds + 1)) := by
  constructor
  · have hne : (find_candidates (parseFn content)).isEmpty = false := by
      simpa [List.isEmpty_iff] using h1
    unfold convert_file
    simp only [hne, Bool.false_eq_true, if_false, build_manual,
      Option.isSome_none, h2]
    cases hc : candLoop oracle none content old (normalize old)
        (find_candidates (parseFn content)) 0 content [] 1 with
    | none => simp
    | some r => simp
  · intro initial old' oldN cont range ap rest i recs builds
    constructor
    · intro changed hch
      conv_lhs => rw [candLoop]
      simp [build_manual, hch]
    · intro e he
      conv_lhs => rw [candLoop]
      simp [build_manual, he]

/-- Witness for C1 at a concrete input (it applies the theorem and projects
its first conjunct, the `convert_file` equation). -/
theorem c1_commit_iff_baseline_fixed_witness :
    (find_candidates ((fun _ => enableTree)
        "mkEnableOption \"widget support\"".data) ≠ []
      ∧ (fun _ => (.ok "out".data : Except (List Char) (List Char)))
          "mkEnableOption \"widget support\"".data = .ok "out".data)
    ∧ convert_file (fun _ => enableTree) (fun _ => .ok "out".data) false
        "p.nix".data "mkEnableOption \"widget support\"".data =
      (candLoop (fun _ => .ok "out".data) none
          "mkEnableOption \"widget support\"".data "out".data
          (normalize "out".data)
          (find_candidates ((fun _ => enableTree)
            "mkEnableOption \"widget support\"".data))
          0 "mkEnableOption \"widget support\"".data [] 1).map
        (fun r => ⟨.ok r.1, r.2.1, r.2.2, 1⟩) :=
  ⟨⟨by decide, rfl⟩,
   (c1_commit_iff_baseline_fixed (fun _ => enableTree)
     (fun _ => .ok "out".data) "p.nix".data
     "mkEnableOption \"widget support\"".data "out".data
     (by decide) rfl).1⟩

/-! ## Membership lemmas for `allNodes` -/

theorem mem_allNodes_self (n : SyntaxNode) : n ∈ allNodes n := by
  cases n with
  | mk k r t cs => rw [allNodes]; exact List.mem_cons_self _ _

theorem mem_allNodesL_of_mem {m c : SyntaxNode} {cs : List SyntaxNode}
    (hc : c ∈ cs) (hm : m ∈ allNodes c) : m ∈ allNodesL cs := by
  induction cs with
  | nil => cases hc
  | cons d ds ih =>
    rw [allNodesL]
    rcases List.mem_cons.mp hc with rfl | h
    · exact List.mem_append.mpr (Or.inl hm)
    · exact List.mem_append.mpr (Or.inr (ih h))

theorem mem_allNodes_of_child {m c n : SyntaxNode}
    (hc : c ∈ n.children) (hm : m ∈ allNodes c) : m ∈ allNodes n := by
  cases n with
  | mk k r t cs =>
    simp only [SyntaxNode.children] at hc
    rw [allNodes]
    exact List.mem_cons.mpr (Or.inr (mem_allNodesL_of_mem hc hm))

theorem mem_of_allNodesL {m : SyntaxNode} {cs : List SyntaxNode}
    (h : m ∈ allNodesL cs) : ∃ c ∈ cs, m ∈ allNodes c := by
  induction cs with
  | nil => rw [allNodesL] at h; cases h
  | cons d ds ih =>
    rw [allNodesL] at h
    rcases List.mem_append.mp h with h1 | h2
    · exact ⟨d, List.mem_cons_self _ _, h1⟩
    · obtain ⟨c, hc, hm⟩ := ih h2
      exact ⟨c, List.mem_cons_of_mem _ hc, hm⟩

theorem applyValue_mem_children {n arg : SyntaxNode}
    (h : applyValue n = some arg) : arg ∈ n.children := by
  unfold applyValue at h
  exact List.get?_mem h

/-! ## Claim C5: the callee subtree of an application is skipped -/

/-- Counterexample to claim C5: the tree of `(g (mkEnableOption "x")) y`
contains an `mkEnableOption` declaration (inside the callee of the outer
application), and that declaration yields a candidate when reached on its
own; yet the locator returns no candidate at all, because for an application
node with an argument only the argument subtree is enqueued (`continue`
skips the children loop), so the callee subtree is never visited. -/
theorem c5_callee_not_enqueued_counterexample :
    (allNodes calleeNestedTree).any (fun n => is_call_to n "mkEnableOption")
      = true
    ∧ find_candidates innerEnableTree = [(⟨19, 24⟩, true)]
    ∧ find_candidates calleeNestedTree = [] := by decide

/-- Claim C5 amended: for an application node with an argument, only the
argument subtree is enqueued; the callee subtree is skipped entirely.  For
any callee `lam`, the candidates of `lam f` (with an identifier argument) are
exactly the `mkEnableOption` candidate of the whole application — nothing
inside `lam` is ever visited, whatever `lam` contains. -/
theorem c5_apply_enqueues_only_argument (lam : SyntaxNode) (r1 r2 : TextRange)
    (tx nm : String) :
    find_candidates (.mk .NODE_APPLY r1 tx [lam, .mk .NODE_IDENT r2 nm []]) =
      if is_call_to (.mk .NODE_APPLY r1 tx [lam, .mk .NODE_IDENT r2 nm []])
          "mkEnableOption" then [(r2, true)] else [] := by
  have hsz : (SyntaxNode.mk .NODE_APPLY r1 tx
      [lam, .mk .NODE_IDENT r2 nm []]).size + 1 = (lam.size + 2) + 1 := by
    simp [SyntaxNode.size, sizeList]
    omega
  unfold find_candidates
  rw [hsz, fcLoop]
  simp only [SyntaxNode.kind, applyValue, SyntaxNode.children, List.get?,
    List.nil_append]
  have hguard : enableGuard (.mk .NODE_IDENT r2 nm []) = true := rfl
  rw [hguard, Bool.and_true]
  have hstep2 : ∀ acc, fcLoop (lam.size + 2)
      [(SyntaxNode.mk .NODE_IDENT r2 nm [], optionCallFlag
        (.mk .NODE_APPLY r1 tx [lam, .mk .NODE_IDENT r2 nm []]))] acc = acc := by
    intro acc
    rw [show lam.size + 2 = (lam.size + 1) + 1 from rfl, fcLoop]
    rfl
  rw [hstep2]
  cases h : is_call_to (.mk .NODE_APPLY r1 tx [lam, .mk .NODE_IDENT r2 nm []])
      "mkEnableOption" <;> simp [h] <;> rfl

/-! ## Claim C6: the migrated-marker guard makes migration idempotent -/

/-- On a queue all of whose trees satisfy the migrated-marker guard
everywhere (and whose flagged entries have fully marked descriptions), the
worklist loop adds nothing to its accumulator. -/
theorem fcLoop_migrated (fuel : Nat) :
    ∀ (queue : List (SyntaxNode × Bool)) (acc : List (TextRange × Bool)),
      (∀ p ∈ queue, (∀ m ∈ allNodes p.1, migratedOK m = true)
        ∧ (p.2 = true → descAllMarked p.1 = true)) →
      fcLoop fuel queue acc = acc := by
  induction fuel with
  | zero =>
    intro queue acc _
    cases queue with
    | nil => rfl
    | cons q qs => rfl
  | succ fuel ih =>
    intro queue acc h
    cases queue with
    | nil => rfl
    | cons q qs =>
      obtain ⟨node, flag⟩ := q
      have hq := h _ (List.mem_cons_self _ _)
      have hqs : ∀ p ∈ qs, (∀ m ∈ allNodes p.1, migratedOK m = true)
          ∧ (p.2 = true → descAllMarked p.1 = true) :=
        fun p hp => h p (List.mem_cons_of_mem _ hp)
      have hnode : migratedOK node = true := hq.1 node (mem_allNodes_self node)
      have hpush : ∀ p ∈ (node.children.map fun c => (c, false)),
          (∀ m ∈ allNodes p.1, migratedOK m = true)
          ∧ (p.2 = true → descAllMarked p.1 = true) := by
        intro p hp
        obtain ⟨c, hc, rfl⟩ := List.mem_map.mp hp
        exact ⟨fun m hm => hq.1 m (mem_allNodes_of_child hc hm),
          fun hf => by simp at hf⟩
      have hkids : ∀ p ∈ qs ++ (node.children.map fun c => (c, false)),
          (∀ m ∈ allNodes p.1, migratedOK m = true)
          ∧ (p.2 = true → descAllMarked p.1 = true) :=
        fun p hp => (List.mem_append.mp hp).elim (hqs p) (hpush p)
      obtain ⟨k, r, tx, cs⟩ := node
      rw [fcLoop]
      cases k with
      | NODE_APPLY =>
        simp only [SyntaxNode.kind]
        split
        · rename_i arg harg
          have hargmem := applyValue_mem_children harg
          simp only [migratedOK, harg] at hnode
          rw [Bool.and_eq_true] at hnode
          obtain ⟨h1, h2⟩ := hnode
          have hcond : (is_call_to (.mk .NODE_APPLY r tx cs) "mkEnableOption"
              && enableGuard arg) = false := by
            rw [Bool.or_eq_true] at h1
            rcases h1 with hic | heg
            · rw [Bool.not_eq_true'] at hic
              rw [hic, Bool.false_and]
            · rw [Bool.not_eq_true'] at heg
              rw [heg, Bool.and_false]
          rw [hcond]
          simp only [Bool.false_eq_true, if_false]
          apply ih
          intro p hp
          rcases List.mem_append.mp hp with hp1 | hp2
          · exact hqs p hp1
          · rw [List.mem_singleton] at hp2
            subst hp2
            refine ⟨fun m hm => hq.1 m (mem_allNodes_of_child hargmem hm),
              fun hocf => ?_⟩
            rw [Bool.or_eq_true] at h2
            rcases h2 with hno | hok
            · rw [Bool.not_eq_true'] at hno
              have hocf' : optionCallFlag (SyntaxNode.mk .NODE_APPLY r tx cs)
                  = true := hocf
              rw [hocf'] at hno
              cases hno
            · exact hok
        · exact ih _ _ hkids
      | NODE_ATTR_SET =>
        simp only [SyntaxNode.kind]
        have hfm : (attrEntries (.mk .NODE_ATTR_SET r tx cs)).filterMap
            (descCandidate flag) = [] := by
          rw [List.filterMap_eq_nil_iff]
          intro e he
          cases hflag : flag with
          | false =>
            rw [descCandidate]
            simp
          | true =>
            have hdm := hq.2 hflag
            rw [descAllMarked] at hdm
            simp only [SyntaxNode.kind, decide_True, Bool.not_true,
              Bool.false_or] at hdm
            have he' := List.all_eq_true.mp hdm e he
            rw [descCandidate]
            rw [Bool.or_eq_true] at he'
            rcases he' with hk | hv
            · rw [Bool.not_eq_true', decide_eq_false_iff_not] at hk
              simp [hk]
            · simp [hv]
        rw [hfm, List.append_nil]
        exact ih _ _ hkids
      | NODE_IDENT => exact ih _ _ hkids
      | NODE_SELECT => exact ih _ _ hkids
      | NODE_PAREN => exact ih _ _ hkids
      | NODE_KEY_VALUE => exact ih _ _ hkids
      | NODE_KEY => exact ih _ _ hkids
      | NODE_STRING => exact ih _ _ hkids
      | OTHER => exact ih _ _ hkids

/-- Claim C6: migration is idempotent via the migrated-marker guard.  For
every tree in which each `mkEnableOption` argument is already a parenthesised
`mdDoc` call and each `description` value inside an option body (the
attrset argument of an option-constructor wrapper call) is already an `mdDoc`
call, the candidate locator returns the empty sequence — running the pipeline
on the output of a complete run yields zero new candidates. -/
theorem c6_already_migrated_no_candidates (t : SyntaxNode)
    (h : ∀ n ∈ allNodes t, migratedOK n = true) :
    find_candidates t = [] := by
  have hrun := fcLoop_migrated (t.size + 1) [(t, false)] [] (by
    intro p hp
    rw [List.mem_singleton] at hp
    subst hp
    exact ⟨h, fun hf => by simp at hf⟩)
  unfold find_candidates
  rw [hrun]
  rfl

/-- Witness for C6 at a concrete fully migrated file. -/
theorem c6_already_migrated_no_candidates_witness :
    (∀ n ∈ allNodes migratedFileTree, migratedOK n = true)
    ∧ find_candidates migratedFileTree = [] :=
  ⟨by decide, c6_already_migrated_no_candidates migratedFileTree (by decide)⟩


/-! ## Claim C2: ordering, bounds and (non-)disjointness of candidate spans -/

theorem kvValue_mem_children {n v : SyntaxNode}
    (h : kvValue n = some v) : v ∈ n.children := by
  unfold kvValue at h
  exact List.get?_mem h

theorem size_le_sizeList {c : SyntaxNode} {cs : List SyntaxNode} (h : c ∈ cs) :
    c.size ≤ sizeList cs := by
  induction cs with
  | nil => cases h
  | cons d ds ih =>
    rw [sizeList]
    rcases List.mem_cons.mp h with rfl | h'
    · exact Nat.le_add_right _ _
    · exact (ih h').trans (Nat.le_add_left _ _)

theorem size_lt_of_mem_children {c : SyntaxNode} {k : SyntaxKind}
    {r : TextRange} {tx : String} {cs : List SyntaxNode} (h : c ∈ cs) :
    c.size < (SyntaxNode.mk k r tx cs).size := by
  rw [SyntaxNode.size]
  have := size_le_sizeList h
  omega

theorem wfChildren_mem {r : TextRange} {cs : List SyntaxNode} {c : SyntaxNode}
    (hw : wfChildren r cs = true) (hc : c ∈ cs) :
    r.start ≤ c.range.start ∧ c.range.stop ≤ r.stop ∧ wfNode c = true := by
  induction cs with
  | nil => cases hc
  | cons d ds ih =>
    rw [wfChildren, Bool.and_eq_true, Bool.and_eq_true, Bool.and_eq_true] at hw
    obtain ⟨⟨⟨h1, h2⟩, h3⟩, h4⟩ := hw
    rcases List.mem_cons.mp hc with rfl | h'
    · exact ⟨of_decide_eq_true h1, of_decide_eq_true h2, h3⟩
    · exact ih h4 h'

/-- Every node of a well-formed tree has an ordered span lying within the
root's span. -/
theorem wf_bounds : ∀ (t : SyntaxNode), wfNode t = true →
    ∀ n ∈ allNodes t, t.range.start ≤ n.range.start
      ∧ n.range.start ≤ n.range.stop ∧ n.range.stop ≤ t.range.stop
  | .mk k r tx cs => by
    intro hw n hn
    rw [wfNode, Bool.and_eq_true] at hw
    obtain ⟨hrr, hwc⟩ := hw
    rw [allNodes] at hn
    rcases List.mem_cons.mp hn with rfl | hn'
    · exact ⟨Nat.le_refl _, of_decide_eq_true hrr, Nat.le_refl _⟩
    · obtain ⟨c, hc, hnc⟩ := mem_of_allNodesL hn'
      obtain ⟨hcs, hce, hcw⟩ := wfChildren_mem hwc hc
      have hrec := wf_bounds c hcw n hnc
      exact ⟨Nat.le_trans hcs hrec.1, hrec.2.1, Nat.le_trans hrec.2.2 hce⟩
termination_by t => t.size
decreasing_by
  simp_wf
  exact size_lt_of_mem_children hc

/-- Every span the worklist loop adds to its accumulator is the span of some
node of some tree in the queue. -/
theorem fcLoop_ranges (fuel : Nat) :
    ∀ (queue : List (SyntaxNode × Bool)) (acc : List (TextRange × Bool))
      (x : TextRange × Bool), x ∈ fcLoop fuel queue acc →
      x ∈ acc ∨ ∃ n, (∃ p ∈ queue, n ∈ allNodes p.1) ∧ x.1 = n.range := by
  induction fuel with
  | zero =>
    intro queue acc x hx
    cases queue with
    | nil => exact Or.inl hx
    | cons q qs => exact Or.inl hx
  | succ fuel ih =>
    intro queue acc x hx
    cases queue with
    | nil => exact Or.inl hx
    | cons q qs =>
      obtain ⟨node, flag⟩ := q
      obtain ⟨k, r, tx, cs⟩ := node
      rw [fcLoop] at hx
      have hstep : ∀ (pushes : List (SyntaxNode × Bool))
          (acc' : List (TextRange × Bool)),
          (∀ pp ∈ pushes, ∀ m ∈ allNodes pp.1,
            m ∈ allNodes (SyntaxNode.mk k r tx cs)) →
          (∀ y ∈ acc', y ∈ acc ∨ ∃ n, n ∈ allNodes (SyntaxNode.mk k r tx cs)
            ∧ y.1 = n.range) →
          x ∈ fcLoop fuel (qs ++ pushes) acc' →
          x ∈ acc ∨ ∃ n, (∃ p ∈ (SyntaxNode.mk k r tx cs, flag) :: qs,
            n ∈ allNodes p.1) ∧ x.1 = n.range := by
        intro pushes acc' hps hacc hx'
        rcases ih _ _ _ hx' with hxacc | ⟨n, ⟨p, hp, hnp⟩, hr⟩
        · rcases hacc x hxacc with hl | ⟨n, hn, hr⟩
          · exact Or.inl hl
          · exact Or.inr ⟨n, ⟨_, List.mem_cons_self _ _, hn⟩, hr⟩
        · rcases List.mem_append.mp hp with h1 | h2
          · exact Or.inr ⟨n, ⟨p, List.mem_cons_of_mem _ h1, hnp⟩, hr⟩
          · exact Or.inr ⟨n, ⟨_, List.mem_cons_self _ _, hps p h2 n hnp⟩, hr⟩
      have hmap : ∀ pp ∈ ((SyntaxNode.mk k r tx cs).children.map
          fun c => (c, false)), ∀ m ∈ allNodes pp.1,
          m ∈ allNodes (SyntaxNode.mk k r tx cs) := by
        intro pp hpp m hm
        obtain ⟨c, hc, rfl⟩ := List.mem_map.mp hpp
        exact mem_allNodes_of_child hc hm
      have haccid : ∀ y ∈ acc, y ∈ acc ∨
          ∃ n, n ∈ allNodes (SyntaxNode.mk k r tx cs) ∧ y.1 = n.range :=
        fun y hy => Or.inl hy
      cases k with
      | NODE_APPLY =>
        simp only [SyntaxNode.kind] at hx
        revert hx
        split
        · rename_i arg harg
          intro hx
          have hargmem := applyValue_mem_children harg
          refine hstep _ _ ?_ ?_ hx
          · intro pp hpp m hm
            rw [List.mem_singleton] at hpp
            subst hpp
            exact mem_allNodes_of_child hargmem hm
          · intro y hy
            revert hy
            split
            · intro hy
              rcases List.mem_append.mp hy with h1 | h2
              · exact Or.inl h1
              · rw [List.mem_singleton] at h2
                subst h2
                exact Or.inr ⟨arg, mem_allNodes_of_child hargmem
                  (mem_allNodes_self arg), rfl⟩
            · intro hy
              exact Or.inl hy
        · intro hx
          exact hstep _ _ hmap haccid hx
      | NODE_ATTR_SET =>
        simp only [SyntaxNode.kind] at hx
        refine hstep _ _ hmap ?_ hx
        intro y hy
        rcases List.mem_append.mp hy with h1 | h2
        · exact Or.inl h1
        · obtain ⟨e, he, hde⟩ := List.mem_filterMap.mp h2
          have hemem : e ∈ (SyntaxNode.mk .NODE_ATTR_SET r tx cs).children := by
            have := List.mem_filter.mp (by
              unfold attrEntries at he
              exact he)
            exact this.1
          revert hde
          unfold descCandidate
          split
          · intro hde
            obtain ⟨v, hv, hvy⟩ := Option.map_eq_some'.mp hde
            refine Or.inr ⟨v, mem_allNodes_of_child hemem
              (mem_allNodes_of_child (kvValue_mem_children hv)
                (mem_allNodes_self v)), ?_⟩
            rw [← hvy]
          · intro hde
            cases hde
      | NODE_IDENT =>
        simp only [SyntaxNode.kind] at hx
        exact hstep _ _ hmap haccid hx
      | NODE_SELECT =>
        simp only [SyntaxNode.kind] at hx
        exact hstep _ _ hmap haccid hx
      | NODE_PAREN =>
        simp only [SyntaxNode.kind] at hx
        exact hstep _ _ hmap haccid hx
      | NODE_KEY_VALUE =>
        simp only [SyntaxNode.kind] at hx
        exact hstep _ _ hmap haccid hx
      | NODE_KEY =>
        simp only [SyntaxNode.kind] at hx
        exact hstep _ _ hmap haccid hx
      | NODE_STRING =>
        simp only [SyntaxNode.kind] at hx
        exact hstep _ _ hmap haccid hx
      | OTHER =>
        simp only [SyntaxNode.kind] at hx
        exact hstep _ _ hmap haccid hx

/-- Counterexample to claim C2's no-overlap part: on the well-formed tree of
`mkOption { description = mkEnableOption "y"; }` the locator returns two
candidates — the `description` value span and, nested inside it, the
`mkEnableOption` argument span — and the two spans overlap. -/
theorem c2_overlapping_spans_counterexample :
    wfNode descTree = true
    ∧ find_candidates descTree = [(⟨40, 43⟩, true), (⟨25, 43⟩, false)]
    ∧ rangesOverlap ⟨40, 43⟩ ⟨25, 43⟩ = true := by decide

/-- Claim C2 amended: the locator's output is sorted by non-increasing start
offset, and on a well-formed parse tree every candidate span is ordered and
lies within the root's span (hence within the file's text); but candidate
spans may overlap, since a `description` value may itself contain a nested
`mkEnableOption` declaration. -/
theorem c2_sorted_and_bounded (t : SyntaxNode) (hw : wfNode t = true) :
    List.Sorted candLE (find_candidates t)
    ∧ ∀ cb ∈ find_candidates t,
        t.range.start ≤ cb.1.start ∧ cb.1.start ≤ cb.1.stop
          ∧ cb.1.stop ≤ t.range.stop := by
  constructor
  · exact List.sorted_insertionSort candLE _
  · intro cb hcb
    unfold find_candidates sortCands at hcb
    have hmem : cb ∈ fcLoop (t.size + 1) [(t, false)] [] :=
      (List.perm_insertionSort candLE _).mem_iff.mp hcb
    rcases fcLoop_ranges _ _ _ _ hmem with h | ⟨n, ⟨p, hp, hnp⟩, hr⟩
    · cases h
    · rw [List.mem_singleton] at hp
      subst hp
      have hb := wf_bounds t hw n hnp
      rw [hr]
      exact hb

/-- Witness for C2 (amended) at a concrete input. -/
theorem c2_sorted_and_bounded_witness :
    wfNode descTree = true
    ∧ (List.Sorted candLE (find_candidates descTree)
      ∧ ∀ cb ∈ find_candidates descTree,
          descTree.range.start ≤ cb.1.start ∧ cb.1.start ≤ cb.1.stop
            ∧ cb.1.stop ≤ descTree.range.stop) :=
  ⟨by decide, c2_sorted_and_bounded descTree (by decide)⟩

/-! ## Claim C3: (non-)idempotence of the normalizer

The counterexample is checked by evaluation.  For the amended claim we prove
that `normalize` is the identity on strings containing none of the characters
any of its thirteen patterns can start a match with, via a first-character
analysis of the regex engine. -/

/-- If no match of `r` can begin with the head character of `s`, then the
matcher either fails outright or consumes nothing: it can only invoke its
continuation at `s` itself (and then `r` is nullable). -/
theorem m_none_or_skip (r : Re) : ∀ (p : Option Char) (s : List Char)
    (caps : Caps) (k : MK),
    (∀ c, s.head? = some c → canStart r c = false) →
    r.m p s caps k = none
      ∨ (nullable r = true ∧ ∃ caps', r.m p s caps k = k p s caps') := by
  induction r with
  | eps =>
    intro p s caps k _
    exact Or.inr ⟨rfl, caps, rfl⟩
  | lit l =>
    intro p s caps k hh
    cases l with
    | nil => exact Or.inr ⟨rfl, caps, rfl⟩
    | cons d l' =>
      cases s with
      | nil => exact Or.inl rfl
      | cons c s' =>
        have hc := hh c rfl
        rw [canStart] at hc
        have hne : ¬(d = c) := by
          intro hdc
          rw [hdc] at hc
          simp at hc
        left
        show Re.m (.lit (d :: l')) p (c :: s') caps k = none
        rw [Re.m]
        rw [show stripPre (d :: l') (c :: s') = none from by
          rw [stripPre, if_neg hne]]
  | cls f =>
    intro p s caps k hh
    cases s with
    | nil => exact Or.inl rfl
    | cons c s' =>
      have hc := hh c rfl
      rw [canStart] at hc
      left
      rw [Re.m, hc]
      rfl
  | cat a b iha ihb =>
    intro p s caps k hh
    have hha : ∀ c, s.head? = some c → canStart a c = false := by
      intro c hc
      have := hh c hc
      rw [canStart, Bool.or_eq_false_iff] at this
      exact this.1
    rw [Re.m]
    rcases iha p s caps _ hha with hnone | ⟨hna, caps₁, heq⟩
    · exact Or.inl hnone
    · rw [heq]
      have hhb : ∀ c, s.head? = some c → canStart b c = false := by
        intro c hc
        have := hh c hc
        rw [canStart, Bool.or_eq_false_iff] at this
        have h2 := this.2
        rw [hna, Bool.true_and] at h2
        exact h2
      rcases ihb p s caps₁ k hhb with hnone | ⟨hnb, caps₂, heq₂⟩
      · exact Or.inl hnone
      · refine Or.inr ⟨?_, caps₂, heq₂⟩
        rw [nullable, hna, hnb]
        rfl
  | alt a b iha ihb =>
    intro p s caps k hh
    have hha : ∀ c, s.head? = some c → canStart a c = false := by
      intro c hc
      have := hh c hc
      rw [canStart, Bool.or_eq_false_iff] at this
      exact this.1
    have hhb : ∀ c, s.head? = some c → canStart b c = false := by
      intro c hc
      have := hh c hc
      rw [canStart, Bool.or_eq_false_iff] at this
      exact this.2
    rw [Re.m]
    rcases iha p s caps k hha with hnone | ⟨hna, caps₁, heq⟩
    · rw [hnone, Option.none_orElse]
      rcases ihb p s caps k hhb with hnb | ⟨hnb, caps₂, heq₂⟩
      · exact Or.inl hnb
      · exact Or.inr ⟨by rw [nullable, hnb, Bool.or_true], caps₂, heq₂⟩
    · rw [heq]
      cases hk : k p s caps₁ with
      | none =>
        rw [Option.none_orElse]
        rcases ihb p s caps k hhb with hnb | ⟨hnb, caps₂, heq₂⟩
        · exact Or.inl hnb
        · exact Or.inr ⟨by rw [nullable, hnb, Bool.or_true], caps₂, heq₂⟩
      | some v =>
        rw [Option.some_orElse]
        exact Or.inr ⟨by rw [nullable, hna, Bool.true_or], caps₁, hk.symm⟩
  | opt a iha =>
    intro p s caps k hh
    have hha : ∀ c, s.head? = some c → canStart a c = false := by
      intro c hc
      have := hh c hc
      rw [canStart] at this
      exact this
    rw [Re.m]
    rcases iha p s caps k hha with hnone | ⟨_, caps₁, heq⟩
    · rw [hnone, Option.none_orElse]
      exact Or.inr ⟨rfl, caps, rfl⟩
    · rw [heq]
      cases hk : k p s caps₁ with
      | none => rw [Option.none_orElse]; exact Or.inr ⟨rfl, caps, rfl⟩
      | some v => rw [Option.some_orElse]; exact Or.inr ⟨rfl, caps₁, hk.symm⟩
  | starG f =>
    intro p s caps k hh
    cases s with
    | nil => exact Or.inr ⟨rfl, caps, rfl⟩
    | cons c s' =>
      have hc := hh c rfl
      rw [canStart] at hc
      rw [Re.m, starGm, hc]
      exact Or.inr ⟨rfl, caps, rfl⟩
  | starL f =>
    intro p s caps k hh
    cases s with
    | nil => exact Or.inr ⟨rfl, caps, rfl⟩
    | cons c s' =>
      have hc := hh c rfl
      rw [canStart] at hc
      rw [Re.m, starLm, hc]
      cases hk : k p (c :: s') caps with
      | none => rw [Option.none_orElse]; exact Or.inl rfl
      | some v => rw [Option.some_orElse]; exact Or.inr ⟨rfl, caps, hk.symm⟩
  | grp n a iha =>
    intro p s caps k hh
    have hha : ∀ c, s.head? = some c → canStart a c = false := by
      intro c hc
      have := hh c hc
      rw [canStart] at this
      exact this
    rw [Re.m]
    rcases iha p s caps _ hha with hnone | ⟨hna, caps₁, heq⟩
    · exact Or.inl hnone
    · rw [heq]
      exact Or.inr ⟨by rw [nullable, hna],
        (n, s.take (s.length - s.length)) :: caps₁, rfl⟩
  | bol =>
    intro p s caps k _
    rw [Re.m]
    split
    · exact Or.inr ⟨rfl, caps, rfl⟩
    · exact Or.inl rfl

/-- A non-nullable regex with no possible first character has no match. -/
theorem matchAt_none_of_no_start (r : Re) (p : Option Char) (s : List Char)
    (hn : nullable r = false)
    (hh : ∀ c, s.head? = some c → canStart r c = false) :
    matchAt r p s = none := by
  unfold matchAt
  rcases m_none_or_skip r p s [] (fun _ s' caps => some (s', caps)) hh with
    h | ⟨hna, _⟩
  · rw [h]; rfl
  · rw [hna] at hn; cases hn

/-- `replace_all` with a non-nullable pattern that can start with no
character of `s` leaves `s` unchanged. -/
theorem replaceAllGo_id (r : Re) (rep : Caps → List Char)
    (hn : nullable r = false) :
    ∀ (s : List Char) (fuel : Nat) (p : Option Char),
      (∀ c ∈ s, canStart r c = false) →
      replaceAllGo r rep fuel p s = s := by
  intro s
  induction s with
  | nil =>
    intro fuel p _
    have hm := matchAt_none_of_no_start r p [] hn (by intro c hc; cases hc)
    cases fuel with
    | zero => rw [replaceAllGo, hm]
    | succ fuel => rw [replaceAllGo, hm]
  | cons c rest ih =>
    intro fuel p h
    have hm := matchAt_none_of_no_start r p (c :: rest) hn (by
      intro d hd
      rw [List.head?] at hd
      cases hd
      exact h c (List.mem_cons_self _ _))
    cases fuel with
    | zero => rfl
    | succ fuel =>
      rw [replaceAllGo, hm]
      rw [ih fuel (some c) (fun d hd => h d (List.mem_cons_of_mem _ hd))]

theorem replaceAll_id (r : Re) (rep : Caps → List Char)
    (hn : nullable r = false) (s : List Char)
    (h : ∀ c ∈ s, canStart r c = false) :
    replaceAll r rep s = s :=
  replaceAllGo_id r rep hn s s.length none h

theorem startsSpecialCC_sound (f : CC) (ho : startsSpecialCC f = true)
    (c : Char) (hc : f.test c = true) : specialChar c = true := by
  cases f with
  | one d =>
    rw [CC.test] at hc
    rw [startsSpecialCC] at ho
    rw [show c = d from by exact_mod_cast of_decide_eq_true hc]
    exact ho
  | among cs =>
    rw [CC.test] at hc
    rw [startsSpecialCC] at ho
    exact List.all_eq_true.mp ho c (List.mem_of_elem_eq_true hc)
  | notOf cs =>
    rw [startsSpecialCC] at ho
    cases ho
  | ws =>
    rw [CC.test] at hc
    simp [specialChar, hc]

theorem startsSpecial_sound (r : Re) : startsSpecial r = true →
    ∀ c, canStart r c = true → specialChar c = true := by
  induction r with
  | eps => intro _ c hc; rw [canStart] at hc; cases hc
  | lit l =>
    intro ho c hc
    cases l with
    | nil => rw [canStart] at hc; cases hc
    | cons d l' =>
      rw [canStart] at hc
      rw [startsSpecial] at ho
      rw [show c = d from by exact_mod_cast of_decide_eq_true hc]
      exact ho
  | cls f =>
    intro ho c hc
    rw [canStart] at hc
    rw [startsSpecial] at ho
    exact startsSpecialCC_sound f ho c hc
  | cat a b iha ihb =>
    intro ho c hc
    rw [startsSpecial, Bool.and_eq_true] at ho
    rw [canStart, Bool.or_eq_true] at hc
    rcases hc with hc | hc
    · exact iha ho.1 c hc
    · rw [Bool.and_eq_true] at hc
      have hb := ho.2
      rw [hc.1, Bool.not_true, Bool.false_or] at hb
      exact ihb hb c hc.2
  | alt a b iha ihb =>
    intro ho c hc
    rw [startsSpecial, Bool.and_eq_true] at ho
    rw [canStart, Bool.or_eq_true] at hc
    rcases hc with hc | hc
    · exact iha ho.1 c hc
    · exact ihb ho.2 c hc
  | opt a iha =>
    intro ho c hc
    rw [startsSpecial] at ho
    rw [canStart] at hc
    exact iha ho c hc
  | starG f =>
    intro ho c hc
    rw [startsSpecial] at ho
    rw [canStart] at hc
    exact startsSpecialCC_sound f ho c hc
  | starL f =>
    intro ho c hc
    rw [startsSpecial] at ho
    rw [canStart] at hc
    exact startsSpecialCC_sound f ho c hc
  | grp n a iha =>
    intro ho c hc
    rw [startsSpecial] at ho
    rw [canStart] at hc
    exact iha ho c hc
  | bol => intro _ c hc; rw [canStart] at hc; cases hc

/-- A pattern-list fold leaves a special-character-free string unchanged when
every pattern is non-nullable and can only start at a special character. -/
theorem foldPatterns_id (ps : List (Re × (Caps → List Char)))
    (hps : ∀ pr ∈ ps, nullable pr.1 = false ∧ startsSpecial pr.1 = true)
    (s : List Char) (hs : ∀ c ∈ s, specialChar c = false) :
    ps.foldl (fun x pr => replaceAll pr.1 pr.2 x) s = s := by
  induction ps with
  | nil => rfl
  | cons q qs ih =>
    rw [List.foldl_cons]
    have hq := hps q (List.mem_cons_self _ _)
    have hid : replaceAll q.1 q.2 s = s := by
      refine replaceAll_id q.1 q.2 hq.1 s ?_
      intro c hc
      cases hcs : canStart q.1 c with
      | false => rfl
      | true =>
        have := startsSpecial_sound q.1 hq.2 c hcs
        rw [hs c hc] at this
        cases this
    rw [hid]
    exact ih (fun pr hpr => hps pr (List.mem_cons_of_mem _ hpr))

/-- Counterexample to claim C3: `normalize` is not idempotent.  On the build
output `<programlisting></para><para>` the first pass inserts a newline
before the paragraph boundary; the second pass then matches the
`<programlisting([^>]*)>\n` rule, which the first pass could not match, and
prefixes an extra `</para>`. -/
theorem c3_normalize_not_idempotent_counterexample :
    normalize (normalize "<programlisting></para><para>".data) ≠
      normalize "<programlisting></para><para>".data := by
  decide

/-- Claim C3 amended: `normalize` is not idempotent in general (see the
counterexample), but it is idempotent — indeed the identity — on every
build-output string containing no whitespace, no angle brackets and none of
the folded Unicode punctuation characters, i.e. no character that any of its
thirteen patterns can start a match with. -/
theorem c3_normalize_identity_on_plain (s : List Char)
    (h : ∀ c ∈ s, specialChar c = false) :
    normalize s = s ∧ normalize (normalize s) = normalize s := by
  have hpat : ∀ pr ∈ normPatterns,
      nullable pr.1 = false ∧ startsSpecial pr.1 = true := by decide
  have hid : normalize s = s := by
    unfold normalize
    exact foldPatterns_id normPatterns hpat s h
  exact ⟨hid, by rw [hid]; exact hid⟩

/-- Witness for C3 (amended) at a concrete input. -/
theorem c3_normalize_identity_on_plain_witness :
    (∀ c ∈ "plainoutput".data, specialChar c = false)
    ∧ (normalize "plainoutput".data = "plainoutput".data
      ∧ normalize (normalize "plainoutput".data) =
          normalize "plainoutput".data) := by
  refine ⟨by decide, c3_normalize_identity_on_plain _ (by decide)⟩

/-! ## Claim C4: escaping and entity decoding in inserted inline text -/

/-- Counterexample to claim C4: the `CodePat` replacer used for `literal`
(and `filename`, `option`, `command`) elements does not backslash-escape
asterisks and does not decode `&amp;`.  Transducing
`<literal>*&amp;</literal>` keeps the asterisk unescaped (no `\*` anywhere in
the output) and leaves `&amp;` encoded. -/
theorem c4_codepat_no_escape_counterexample :
    convertChunk "<literal>*&amp;</literal>".data = "\x60*&amp;\x60".data
    ∧ ¬ ("\\*".data <:+: convertChunk "<literal>*&amp;</literal>".data)
    ∧ ("&amp;".data <:+: convertChunk "<literal>*&amp;</literal>".data) := by
  decide

/-- Claim C4 amended: the escaping rule holds only for the text inserted
through `SurroundPat` (link targets, link bodies, emphasis bodies): there
backtick and asterisk are backslash-escaped and all three entities are
decoded.  The `CodePat` rules for `literal`, `filename`, `option` and
`command` elements instead decode only `&lt;`/`&gt;` and escape nothing
(their patterns merely exclude backticks from the matched text). -/
theorem c4_escaping_only_in_surround_pat :
    convertChunk "<emphasis>a\x60b</emphasis>".data = "*a\\\x60b*".data
    ∧ convertChunk "<link xlink:href=\"u\">x*y&amp;</link>".data =
        "[x\\*y&](u)".data
    ∧ convertChunk "<link xlink:href=\"u\"/>".data = "<u>".data
    ∧ convertChunk "<literal>*&amp;</literal>".data = "\x60*&amp;\x60".data
    ∧ convertChunk "<literal>&lt;x&gt;</literal>".data = "\x60<x>\x60".data
    ∧ convertChunk "<command>a*b</command>".data =
        "\x7bcommand\x7d\x60a*b\x60".data := by
  decide

end NixDocMunge
